import Mathlib

/-!
Verification development for the `prompster.py` single-file Flask application:
a read-only repository browser that lists directory children (paginated,
ignore-aware, sorted directories-first), renders file contents safely
(binary sniffing, size capping, dynamic backtick fences) and assembles a
Markdown snapshot for a selected set of files.

The Python source is shallowly embedded below: pure helper functions become
Lean functions over explicit data (byte lists, path-segment lists, entry
records), and the two HTTP handlers become functions from a request model to
a response model.  Filesystem facts that the handlers query (existence,
directory-ness, scandir listings, file bytes) are supplied as explicit
record fields, so every definition is executable on concrete inputs.
-/

namespace Prompster

/-! ## Python primitive semantics

Helpers modelling the Python / library primitives the source leans on:
`fnmatch.fnmatch` shell globbing, `int(...)` parsing of query strings, and
list slicing `xs[a : b]` with negative-index clamping. -/

/-- One entry of a glob bracket set: a literal character is a one-character
range.  Models the sets produced by Python `fnmatch.translate` for `[...]`. -/
def bracketMatch : List Char → Char → Bool
  | a :: '-' :: b :: rest, c =>
    (decide (a ≤ c) && decide (c ≤ b)) || bracketMatch rest c
  | a :: rest, c => (a == c) || bracketMatch rest c
  | [], _ => false

/-- Scan for the closing bracket of a `[...]` set, returning the set body and
the remainder of the pattern; `none` when the set is unterminated (in which
case `fnmatch` treats `[` as a literal character). -/
def bracketSplit : List Char → Option (List Char × List Char)
  | [] => none
  | ']' :: rest => some ([], rest)
  | c :: rest =>
    match bracketSplit rest with
    | some (body, rem) => some (c :: body, rem)
    | none => none

/-- Parse a full bracket expression after the opening `[`: an optional `!`
negation, then a set body where a leading `]` is literal. -/
def bracketParse (p : List Char) : Option (Bool × List Char × List Char) :=
  let (neg, q) := match p with
    | '!' :: q => (true, q)
    | _ => (false, p)
  match q with
  | ']' :: q2 =>
    match bracketSplit q2 with
    | some (body, rem) => some (neg, ']' :: body, rem)
    | none => none
  | _ =>
    match bracketSplit q with
    | some (body, rem) => some (neg, body, rem)
    | none => none

/-- Fuel-indexed shell-glob matcher: `*` matches any sequence (including
separators, as in `fnmatch`), `?` any single character, `[...]` a character
set with ranges and `!` negation; every other character matches literally.
Each recursive call shortens the pattern or the string, so fuel
`|pattern| + |string| + 1` always suffices; fuel exhaustion never happens on
the calls made by `fnmatch` below. -/
def globAux : Nat → List Char → List Char → Bool
  | 0, _, _ => false
  | _ + 1, [], s => s.isEmpty
  | fuel + 1, '*' :: ps, s =>
    match s with
    | [] => globAux fuel ps []
    | _ :: cs => globAux fuel ps s || globAux fuel ('*' :: ps) cs
  | fuel + 1, '?' :: ps, s =>
    match s with
    | [] => false
    | _ :: cs => globAux fuel ps cs
  | fuel + 1, '[' :: ps, s =>
    match bracketParse ps with
    | some (neg, body, rem) =>
      match s with
      | [] => false
      | c :: cs => (bracketMatch body c != neg) && globAux fuel rem cs
    | none =>
      match s with
      | [] => false
      | c :: cs => (c == '[') && globAux fuel ps cs
  | fuel + 1, p :: ps, s =>
    match s with
    | [] => false
    | c :: cs => (p == c) && globAux fuel ps cs

/-- Models Python `fnmatch.fnmatch(name, pat)` on a case-sensitive
filesystem: anchored shell-glob match of the whole string. -/
def fnmatch (name pat : String) : Bool :=
  globAux (pat.length + name.length + 1) pat.data name.data

/-- Digit-run parser used by `pyInt`: accepts digits with single underscores
between digits (as Python `int` does), accumulating the value. -/
def pyDigitsAux : Nat → List Char → Option Nat
  | acc, [] => some acc
  | acc, '_' :: c :: rest =>
    if c.isDigit then pyDigitsAux (acc * 10 + (c.toNat - 48)) rest else none
  | _, '_' :: [] => none
  | acc, c :: rest =>
    if c.isDigit then pyDigitsAux (acc * 10 + (c.toNat - 48)) rest else none

/-- Nonempty digit run (first character must be a digit). -/
def pyDigits : List Char → Option Nat
  | [] => none
  | c :: rest =>
    if c.isDigit then pyDigitsAux (c.toNat - 48) rest else none

/-- Strip leading and trailing whitespace from a character list, as Python
`str.strip` does before `int` parses. -/
def pyStrip (cs : List Char) : List Char :=
  ((cs.dropWhile Char.isWhitespace).reverse.dropWhile Char.isWhitespace).reverse

/-- Models Python `int(s)` on a decimal string: surrounding whitespace
stripped, optional sign, digits with optional single underscores between
them; `none` models the `ValueError` raised on any other input. -/
def pyInt (s : String) : Option Int :=
  match pyStrip s.data with
  | '+' :: rest => (pyDigits rest).map (fun n => (n : Int))
  | '-' :: rest => (pyDigits rest).map (fun n => -(n : Int))
  | rest => (pyDigits rest).map (fun n => (n : Int))

/-- Clamp a Python slice index to `[0, len]`: negative indices count from the
end of the list, as in `xs[a : b]`. -/
def pyIndex (len : Nat) (i : Int) : Nat :=
  if i < 0 then ((len : Int) + i).toNat else min i.toNat len

/-- Models the Python slice `xs[a : b]` (step 1) with negative-index
semantics. -/
def pySlice {α : Type} (xs : List α) (a b : Int) : List α :=
  (xs.take (pyIndex xs.length b)).drop (pyIndex xs.length a)

/-! ## Ignore matcher (`_ignored`, `IGNORE_DEFAULTS`) -/

/-- The built-in ignore patterns (`IGNORE_DEFAULTS` in the source); the
runtime pattern list is these plus any lines of an optional
`.prompsterignore` file, so the matcher below takes the pattern list as an
argument. -/
def IGNORE_DEFAULTS : List String :=
  [".git/", ".hg/", ".svn/", "__pycache__/", ".mypy_cache/", ".pytest_cache/",
   ".tox/", "node_modules/", "venv/", ".venv/", "env/", ".ipynb_checkpoints/",
   "build/", "dist/", "*.pyc", ".DS_Store"]

/-- Whether a string ends with the character `c` (used for the trailing-`/`
test on ignore patterns; kept on the character list so that concrete
instances evaluate inside the kernel). -/
def endsWithChar (s : String) (c : Char) : Bool :=
  s.data.getLast? == some c

/-- Whether one ignore pattern matches a relative POSIX path: a pattern
ending in `/` matches only directories, against the path with a trailing `/`
appended; any other pattern matches the path directly.  Mirrors the loop
body of `_ignored`. -/
def patMatches (pat relPosix : String) (isDir : Bool) : Bool :=
  if endsWithChar pat '/' then isDir && fnmatch (relPosix ++ "/") pat
  else fnmatch relPosix pat

/-- Models `_ignored(rel_posix, is_dir)`: the gitignore-like light matcher,
true iff some pattern of the list matches (the Python loop returns on the
first match). -/
def ignoredRel (pats : List String) (relPosix : String) (isDir : Bool) : Bool :=
  pats.any (fun pat => patMatches pat relPosix isDir)

/-! ## Tree provider (`_children_of`)

A raw `os.scandir` entry is modelled with the facts the code queries about
it: its name, whether `is_dir(follow_symlinks=False)` succeeded and what it
returned, whether the resolved path stays inside `ROOT`, the resolved
root-relative POSIX path and absolute path string, the stat size for files,
and the data of the one-level `has_children` probe run on directories. -/

/-- A child entry as seen by the nested probe scan inside `_children_of`
(only the fields that scan consults). -/
structure ProbeEntry where
  isDir : Bool
  statFail : Bool
  inRoot : Bool
  rel : String
deriving DecidableEq, Repr

/-- A raw directory entry as `_children_of` sees it from `os.scandir`. -/
structure RawEntry where
  name : String
  /-- `e.is_dir(follow_symlinks=False)` raised `OSError`. -/
  statFail : Bool
  isDir : Bool
  /-- the resolved child stays inside `ROOT`. -/
  inRoot : Bool
  /-- resolved path relative to `ROOT`, POSIX separators. -/
  rel : String
  /-- `str(abs_child)`. -/
  fullPath : String
  /-- `e.stat(follow_symlinks=False).st_size` raised `OSError`. -/
  sizeFail : Bool
  size : Nat
  /-- scanning the child directory for the probe raised
  `PermissionError` / `FileNotFoundError`. -/
  probeOk : Bool
  probe : List ProbeEntry
deriving DecidableEq, Repr

/-- The JSON node `_children_of` emits per child. -/
structure Node where
  name : String
  path : String
  fullPath : String
  is_dir : Bool
  hasChildren : Option Bool
  size : Option Nat
deriving DecidableEq, Repr

/-- The paginated payload `_children_of` returns. -/
structure TreeChunk where
  children : List Node
  offset : Int
  limit : Int
  total : Nat
  has_more : Bool
deriving DecidableEq, Repr

/-- The per-entry filter of the first loop in `_children_of`: skip entries
whose `is_dir` stat failed, entries resolving outside `ROOT`, and ignored
entries. -/
def keepEntry (pats : List String) (e : RawEntry) : Bool :=
  !e.statFail && e.inRoot && !ignoredRel pats e.rel e.isDir

/-- The quick `hasChildren` probe: scan the child directory until one
non-skipped, non-ignored entry is found (`List.any` short-circuits exactly
like the `break` in the source); a failed scan reports no children. -/
def probeHasChildren (pats : List String) (e : RawEntry) : Bool :=
  e.probeOk &&
    e.probe.any (fun c => !c.statFail && c.inRoot && !ignoredRel pats c.rel c.isDir)

/-- Rendering one kept entry as a node: directories carry the probe result,
files carry the best-effort size (0 when stat fails). -/
def mkNode (pats : List String) (e : RawEntry) : Node :=
  { name := e.name
  , path := e.rel
  , fullPath := e.fullPath
  , is_dir := e.isDir
  , hasChildren := if e.isDir then some (probeHasChildren pats e) else none
  , size := if e.isDir then none else some (if e.sizeFail then 0 else e.size) }

/-- Lexicographic code-point comparison of character lists, the order Python
uses on strings. -/
def codeLexLe : List Char → List Char → Bool
  | [], _ => true
  | _ :: _, [] => false
  | a :: as, b :: bs => a.toNat < b.toNat || (a == b && codeLexLe as bs)

/-- The comparison behind `entries.sort(key=lambda t: (not t[1],
t[0].name.lower()))`: directories first, then case-insensitive name
(lower-cased character-wise), comparing by code point as Python does. -/
def childLE (a b : RawEntry) : Bool :=
  let ka : Nat := if a.isDir then 0 else 1
  let kb : Nat := if b.isDir then 0 else 1
  ka < kb ||
    (ka == kb && codeLexLe (a.name.data.map Char.toLower) (b.name.data.map Char.toLower))

/-- The filtered, sorted entry list `_children_of` paginates over: a failed
top-level scan (`PermissionError`) degrades to an empty list. -/
def keptSorted (pats : List String) (scanOk : Bool) (es : List RawEntry) :
    List RawEntry :=
  (if scanOk then es.filter (keepEntry pats) else []).mergeSort childLE

/-- Models `_children_of(dir_path, offset, limit)`: filter, sort, slice
`[offset : offset + limit]` with Python slice semantics (the handler passes
whatever integers the query carried), and report `total` and `has_more`. -/
def children_of (pats : List String) (scanOk : Bool) (es : List RawEntry)
    (offset limit : Int) : TreeChunk :=
  let sorted := keptSorted pats scanOk es
  let total := sorted.length
  { children := (pySlice sorted offset (offset + limit)).map (mkNode pats)
  , offset := offset
  , limit := limit
  , total := total
  , has_more := decide (offset + limit < (total : Int)) }

/-- The client's pagination loop over one directory (`fetchAllChildrenBfs`
inner loop): call `_children_of` at offsets `0, N, 2N, ...` and concatenate
the returned `children` lists until `has_more` is false.  The fuel bound
`|entries| + 1` is enough for any positive page size, since `total` never
exceeds the raw entry count. -/
def fetchPagesAux (pats : List String) (scanOk : Bool) (es : List RawEntry)
    (N : Nat) : Nat → Nat → List Node
  | _, 0 => []
  | off, fuel + 1 =>
    let r := children_of pats scanOk es (off : Int) (N : Int)
    if r.has_more then r.children ++ fetchPagesAux pats scanOk es N (off + N) fuel
    else r.children

/-- All pages of a directory listing, concatenated in calling order. -/
def fetchAllPages (pats : List String) (scanOk : Bool) (es : List RawEntry)
    (N : Nat) : List Node :=
  fetchPagesAux pats scanOk es N 0 (es.length + 1)

/-! ## Dynamic fence (`_dynamic_fence`) -/

/-- The backtick character (code point 96), named so that it can be used in
code positions. -/
def backtickChar : Char := Char.ofNat 96

/-- Length of the longest run of backticks, computed by a linear scan with
the current-run and best-so-far accumulators; models
`max(len(m.group(0)) for m in re.finditer(r"`+", text))` over maximal
backtick runs (0 when there are none). -/
def longestRunAux : List Char → Nat → Nat → Nat
  | [], cur, best => max cur best
  | c :: cs, cur, best =>
    if c == backtickChar then longestRunAux cs (cur + 1) best
    else longestRunAux cs 0 (max cur best)

/-- Longest backtick run of a string. -/
def longestBacktickRun (text : String) : Nat :=
  longestRunAux text.data 0 0

/-- The fence length `_dynamic_fence` chooses: `max(3, longest + 1)`. -/
def dynamicFenceLen (text : String) : Nat :=
  max 3 (longestBacktickRun text + 1)

/-- A string of `n` backticks (`"`" * n`). -/
def backticks (n : Nat) : String :=
  String.mk (List.replicate n backtickChar)

/-- Models `_dynamic_fence(text, lang)`: wrap the content in a backtick
fence longer than any backtick run inside it. -/
def dynamic_fence (text lang : String) : String :=
  let fence := backticks (dynamicFenceLen text)
  fence ++ lang ++ "\n" ++ text ++ "\n" ++ fence ++ "\n"

/-! ## Content renderer (`_read_text_sampled`) -/

/-- The binary sniff window, `BINARY_SNIFF_BYTES = 4096`. -/
def BINARY_SNIFF_BYTES : Nat := 4096

/-- The default of the `PROMPSTER_MAX_FILE_BYTES` environment knob (1 MiB);
`_read_text_sampled` below takes the configured value as its `maxBytes`
argument. -/
def MAX_FILE_BYTES_default : Nat := 1048576

/-- Whether a byte is a UTF-8 continuation byte (`0x80`–`0xBF`). -/
def utf8Cont (b : Nat) : Bool := 0x80 ≤ b && b ≤ 0xBF

/-- The U+FFFD replacement character. -/
def replChar : Char := Char.ofNat 0xFFFD

/-- Fuel-indexed UTF-8 decoder with `errors="replace"` semantics as Python's
codec implements them (maximal-subpart substitution): an invalid or
out-of-range lead byte yields one replacement character; a well-formed but
incomplete sequence yields one replacement character for the consumed
prefix, decoding resuming at the first byte that does not fit (so
`E0 41` decodes to U+FFFD followed by `A`, and a truncated tail yields a
single U+FFFD).  Every step consumes at least one byte, so fuel
`|bytes| + 1` suffices. -/
def utf8Aux : Nat → List Nat → List Char
  | 0, _ => []
  | _ + 1, [] => []
  | fuel + 1, b :: bs =>
    if b < 0x80 then Char.ofNat b :: utf8Aux fuel bs
    else if b < 0xC2 then replChar :: utf8Aux fuel bs
    else if b ≤ 0xDF then
      match bs with
      | b2 :: bs2 =>
        if utf8Cont b2 then
          Char.ofNat ((b - 0xC0) * 0x40 + (b2 - 0x80)) :: utf8Aux fuel bs2
        else replChar :: utf8Aux fuel bs
      | [] => [replChar]
    else if b ≤ 0xEF then
      let lo := if b == 0xE0 then 0xA0 else 0x80
      let hi := if b == 0xED then 0x9F else 0xBF
      match bs with
      | b2 :: rest2 =>
        if lo ≤ b2 && b2 ≤ hi then
          match rest2 with
          | b3 :: rest3 =>
            if utf8Cont b3 then
              Char.ofNat ((b - 0xE0) * 0x1000 + (b2 - 0x80) * 0x40 + (b3 - 0x80))
                :: utf8Aux fuel rest3
            else replChar :: utf8Aux fuel rest2
          | [] => [replChar]
        else replChar :: utf8Aux fuel bs
      | [] => [replChar]
    else if b ≤ 0xF4 then
      let lo := if b == 0xF0 then 0x90 else 0x80
      let hi := if b == 0xF4 then 0x8F else 0xBF
      match bs with
      | b2 :: rest2 =>
        if lo ≤ b2 && b2 ≤ hi then
          match rest2 with
          | b3 :: rest3 =>
            if utf8Cont b3 then
              match rest3 with
              | b4 :: rest4 =>
                if utf8Cont b4 then
                  Char.ofNat ((b - 0xF0) * 0x40000 + (b2 - 0x80) * 0x1000 +
                    (b3 - 0x80) * 0x40 + (b4 - 0x80)) :: utf8Aux fuel rest4
                else replChar :: utf8Aux fuel rest3
              | [] => [replChar]
            else replChar :: utf8Aux fuel rest2
          | [] => [replChar]
        else replChar :: utf8Aux fuel bs
      | [] => [replChar]
    else replChar :: utf8Aux fuel bs

/-- Models `data.decode("utf-8", errors="replace")`. -/
def utf8DecodeReplace (bs : List Nat) : String :=
  String.mk (utf8Aux (bs.length + 1) bs)

/-- The result triple of `_read_text_sampled`: `(text, truncated, note)`. -/
structure Rendered where
  text : String
  truncated : Bool
  note : Option String
deriving DecidableEq, Repr

/-- The truncation notice prepended to capped files. -/
def truncNote (size maxBytes : Nat) : String :=
  "<Truncated: " ++ toString size ++ " bytes > " ++ toString maxBytes ++
    " byte preview>"

/-- Models `_read_text_sampled(p)` on a stat-able, openable, readable
regular file whose content is `bytes` (so `p.stat().st_size` is
`bytes.length`); `maxBytes` is the configured `MAX_FILE_BYTES`.  The three
`OSError` branches of the source return error notes and are unreachable in
this total-filesystem model.  Sniff the first `BINARY_SNIFF_BYTES` bytes for
a NUL, then read at most `maxBytes` bytes, decode with replacement, and
prepend the truncation notice when the file was larger than the cap. -/
def read_text_sampled (maxBytes : Nat) (bytes : List Nat) : Rendered :=
  let size := bytes.length
  let head := bytes.take BINARY_SNIFF_BYTES
  if 0 ∈ head then
    { text := "<Binary file omitted>", truncated := false, note := some "binary" }
  else
    let to_read := min size maxBytes
    let data := bytes.take to_read
    let truncated := decide (size > maxBytes)
    let text := utf8DecodeReplace data
    if truncated then
      { text := truncNote size maxBytes ++ "\n" ++ text
      , truncated := true, note := none }
    else
      { text := text, truncated := false, note := none }

/-! ## Client-side selection model

The front-end keeps `checkMap` (fullPath → `true` | `false` | `'dir'`) and
`allowMap` (fullPath → blacklist override granted).  `updatePreview`
computes the effective file set: explicitly checked files plus all files
collected breadth-first under each `'dir'`-marked directory, minus explicit
exclusions and blacklisted paths without an override.  The server-visible
subtree of a directory is modelled as an inductive tree keyed by the
`fullPath` strings the client uses as identities. -/

/-- The bulk-selection blacklist (`BLACKLIST_NAMES` in the page script). -/
def BLACKLIST_NAMES : List String :=
  [".env", ".env.local", ".env.development", ".env.production", ".env.test",
   "__pycache__", ".pytest_cache", ".mypy_cache", ".ipynb_checkpoints",
   "node_modules", ".venv", "venv", ".tox", ".cache", "build", "dist"]

/-- Split a path string at `/` or `\` separators (the segments produced by
`String(fp).split(/[\\/]+/)`; run-collapsing only adds empty segments, which
never match a blacklist name). -/
def splitSegsAux : List Char → List Char → List String
  | acc, [] => [String.mk acc.reverse]
  | acc, c :: cs =>
    if c == '/' || c == '\\' then String.mk acc.reverse :: splitSegsAux [] cs
    else splitSegsAux (c :: acc) cs

/-- Path segments of a fullPath string. -/
def splitSegs (s : String) : List String := splitSegsAux [] s.data

/-- Models `isBlacklistedPath(fp)`: some path segment is a blacklisted
name. -/
def isBlacklistedPath (fp : String) : Bool :=
  if fp == "" then false
  else (splitSegs fp).any (fun s => BLACKLIST_NAMES.contains s)

/-- The guard `!isBlacklistedPath(fp) || allowMap[fp]` used both to admit a
file into the preview set and to descend into a subdirectory during the
breadth-first collection walk. -/
def allowOkB (allow : List String) (fp : String) : Bool :=
  !isBlacklistedPath fp || allow.contains fp

/-- The client's view of one server-side subtree: node identity is the
`fullPath` string the tree endpoint reports. -/
inductive CTree where
  | file (fullPath : String)
  | dir (fullPath : String) (kids : List CTree)

/-- The fullPath of a node. -/
def CTree.path : CTree → String
  | .file fp => fp
  | .dir fp _ => fp

/-- The children the tree endpoint would report for a node (all pages
concatenated; empty for files). -/
def CTree.kids : CTree → List CTree
  | .file _ => []
  | .dir _ ks => ks

/-- Whether a node is a directory. -/
def CTree.isDirNode : CTree → Bool
  | .file _ => false
  | .dir _ _ => true

/-- The fullPath of a file node, `none` for directories. -/
def CTree.filePath : CTree → Option String
  | .file fp => some fp
  | .dir _ _ => none

/-- Size of a forest, the termination measure of the breadth-first walk. -/
def szForest : List CTree → Nat
  | [] => 0
  | .file _ :: ts => 1 + szForest ts
  | .dir _ ks :: ts => 1 + szForest ks + szForest ts

theorem szForest_append (a b : List CTree) :
    szForest (a ++ b) = szForest a + szForest b := by
  induction a with
  | nil => simp [szForest]
  | cons t ts ih => cases t <;> simp [szForest, ih] <;> omega

theorem szForest_filter_le (p : CTree → Bool) (a : List CTree) :
    szForest (a.filter p) ≤ szForest a := by
  induction a with
  | nil => simp [szForest]
  | cons t ts ih =>
    cases t <;> simp only [List.filter] <;> split <;> simp [szForest] <;> omega

theorem szForest_kids_lt (t : CTree) : szForest t.kids < szForest [t] := by
  cases t <;> simp [szForest, CTree.kids]

/-- Models `fetchAllChildrenBfs` as specialised by `collectAllFilesUnder`:
process a FIFO queue of nodes; for each node, record its file children in
order and enqueue those directory children whose path passes the
blacklist/override descend predicate. -/
def bfsFiles (allow : List String) : List CTree → List String
  | [] => []
  | t :: rest =>
    let files := t.kids.filterMap CTree.filePath
    let dirs := t.kids.filter (fun k => k.isDirNode && allowOkB allow k.path)
    files ++ bfsFiles allow (rest ++ dirs)
termination_by q => szForest q
decreasing_by
  have h1 := szForest_filter_le (fun k => k.isDirNode && allowOkB allow k.path) t.kids
  have h2 := szForest_kids_lt t
  have h3 := szForest_append rest
    (t.kids.filter fun k => k.isDirNode && allowOkB allow k.path)
  have h4 : szForest (t :: rest) = szForest [t] + szForest rest := by
    cases t <;> simp [szForest]
  omega

/-- Models `collectAllFilesUnder(folderFullPath)`: breadth-first file
collection seeded with the folder itself (the seed's own path is never
tested against the blacklist, matching the source). -/
def collectAllFilesUnder (allow : List String) (t : CTree) : List String :=
  bfsFiles allow [t]

/-- The three explicit states a checkbox path can be in (`true`, `false`,
`'dir'`). -/
inductive CheckVal where
  | on
  | off
  | sub
deriving DecidableEq, Repr

/-- The persisted `checkMap`, modelled as an association list with the
object's key-uniqueness stated as a hypothesis where a theorem needs it. -/
def lookupCM (cm : List (String × CheckVal)) (fp : String) : Option CheckVal :=
  (cm.find? (fun kv => kv.1 == fp)).map (fun kv => kv.2)

/-- `Object.keys(checkMap).filter(fp => checkMap[fp] === false)`. -/
def excludedKeys (cm : List (String × CheckVal)) : List String :=
  (cm.filter (fun kv => kv.2 == CheckVal.off)).map (fun kv => kv.1)

/-- Models the effective file set computed by `updatePreview` (as a list;
only membership matters to the claims): explicitly checked files that are
not excluded and pass the blacklist guard, plus the breadth-first collection
under every `'dir'`-marked directory filtered the same way, with a final
defensive deletion of all excluded paths.  `lut` maps a directory fullPath
to the client-visible subtree rooted there. -/
def updatePreviewFiles (cm : List (String × CheckVal)) (allow : List String)
    (lut : String → Option CTree) : List String :=
  let excluded := excludedKeys cm
  let part1 := cm.filterMap (fun kv =>
    if kv.2 == CheckVal.on && !excluded.contains kv.1 && allowOkB allow kv.1
    then some kv.1 else none)
  let dirKeys := (cm.filter (fun kv => kv.2 == CheckVal.sub)).map (fun kv => kv.1)
  let part2 := dirKeys.flatMap (fun d =>
    (match lut d with
     | some t => collectAllFilesUnder allow t
     | none => []).filter (fun f => !excluded.contains f && allowOkB allow f))
  (part1 ++ part2).filter (fun f => !excluded.contains f)

/-- All file fullPaths in a forest (the full descendant file set, with no
blacklist filtering); used to state what "every descendant file" means. -/
def filesOfForest : List CTree → List String
  | [] => []
  | .file fp :: ts => fp :: filesOfForest ts
  | .dir _ ks :: ts => filesOfForest ks ++ filesOfForest ts

/-- The descendant files of a directory node. -/
def descFiles (t : CTree) : List String := filesOfForest t.kids

/-- All node fullPaths strictly below the roots of a forest, roots
included. -/
def nodesOfForest : List CTree → List String
  | [] => []
  | .file fp :: ts => fp :: nodesOfForest ts
  | .dir fp ks :: ts => fp :: (nodesOfForest ks ++ nodesOfForest ts)

/-- All node fullPaths strictly below a directory node. -/
def nodesBelow (t : CTree) : List String := nodesOfForest t.kids

/-! ## Language detection (`detect_language`, `EXT_TO_LANG`) -/

/-- The extension-to-language-tag table. -/
def EXT_TO_LANG : List (String × String) :=
  [(".py", "python"), (".js", "javascript"), (".ts", "typescript"),
   (".jsx", "jsx"), (".tsx", "tsx"), (".json", "json"), (".java", "java"),
   (".c", "c"), (".cpp", "cpp"), (".cc", "cpp"), (".hpp", "cpp"),
   (".cs", "csharp"), (".go", "go"), (".rb", "ruby"), (".php", "php"),
   (".html", "html"), (".css", "css"), (".scss", "scss"), (".sh", "bash"),
   (".zsh", "bash"), (".yml", "yaml"), (".yaml", "yaml"), (".rs", "rust"),
   (".swift", "swift")]

/-- Models `os.path.splitext(p)[1]` on a POSIX path: the suffix starting at
the last dot of the final segment, provided some earlier character of that
segment is not a dot (so purely dotted prefixes like `.env` carry no
extension). -/
def splitextExt (p : String) : String :=
  let base := (splitSegs p).getLast? |>.getD ""
  let cs := base.data
  let rev := cs.reverse
  let dotIdx := rev.findIdx? (fun c => c == '.')
  match dotIdx with
  | none => ""
  | some i =>
    let stemLen := cs.length - 1 - i
    if (cs.take stemLen).all (fun c => c == '.') then ""
    else String.mk (cs.drop stemLen)

/-- Models `detect_language(file_path)`: look the lower-cased extension up
in the table, defaulting to the empty tag. -/
def detect_language (filePath : String) : String :=
  let ext := String.mk ((splitextExt filePath).data.map Char.toLower)
  ((EXT_TO_LANG.find? (fun kv => kv.1 == ext)).map (fun kv => kv.2)).getD ""

/-! ## The `/api/tree` handler (`api_tree`)

Absolute paths are modelled as canonical segment lists (`/a/b` is
`["a", "b"]`); `Path(...).resolve()` on the already-canonical inputs the
claims quantify over is the identity, and `ROOT / rel` is concatenation
unless `rel` is absolute, in which case pathlib discards `ROOT` — which is
exactly the behaviour claim C9 is about. -/

/-- The `path` query argument: missing/empty (falsy), a relative string, an
absolute string, or a non-empty string containing an embedded NUL byte — on
the latter `(ROOT / rel).resolve()` raises `ValueError: embedded null
byte`, so such an argument crashes the handler before any path check. -/
inductive PathQ where
  | emptyQ
  | relQ (segs : List String)
  | absQ (segs : List String)
  | nulQ (raw : String)
deriving DecidableEq, Repr

/-- `(ROOT / rel).resolve() if rel else ROOT`: pathlib joining drops the
left operand when the right is absolute.  The `nulQ` arm is never consulted
(resolution raises on it first); the value is arbitrary. -/
def resolveBase (root : List String) : PathQ → List String
  | .emptyQ => root
  | .relQ segs => root ++ segs
  | .absQ segs => segs
  | .nulQ _ => root

/-- The filesystem facts `api_tree` consults, keyed by canonical absolute
path. -/
structure SrvFs where
  pathExists : List String → Bool
  isDir : List String → Bool
  /-- `os.scandir` on the directory succeeds (no `PermissionError`). -/
  scanOk : List String → Bool
  /-- the raw scandir entries of the directory. -/
  entries : List String → List RawEntry

/-- Render an absolute segment path the way `str(path)` does. -/
def pathStr (segs : List String) : String :=
  "/" ++ String.intercalate "/" segs

/-- The `parent` object of the tree response. -/
structure Parent where
  name : String
  path : String
  fullPath : String
deriving DecidableEq, Repr

/-- Outcome of a request: an uncaught exception (Flask's 500), the
"Invalid path" 400, or the JSON payload. -/
inductive TreeOut where
  | crash (msg : String)
  | invalidPath
  | ok (parent : Parent) (chunk : TreeChunk)
deriving DecidableEq, Repr

/-- `base.relative_to(ROOT).as_posix()` for an in-root base (pathlib renders
the empty relative path as `"."`). -/
def relPosixOf (root base : List String) : String :=
  let rel := base.drop root.length
  if rel.isEmpty then "." else String.intercalate "/" rel

/-- `int(request.args.get(name, default))`: a missing argument falls back
to the integer default, a present one is parsed with Python `int` (`none`
models the `ValueError`). -/
def parseIntArg (arg : Option String) (dflt : Int) : Option Int :=
  match arg with
  | none => some dflt
  | some s => pyInt s

/-- Models the `api_tree` handler: parse `limit` and `offset` with Python
`int` (an unparsable value raises `ValueError`, which Flask surfaces as a
500 — modelled as `crash`), resolve the `path` argument against `ROOT`
(a NUL-containing argument makes `resolve()` raise `ValueError`, again a
crash), reject missing / non-directory / out-of-root bases with the 400,
and delegate to `_children_of`. -/
def api_tree (fs : SrvFs) (pats : List String) (root : List String)
    (pathArg : PathQ) (offArg limArg : Option String) : TreeOut :=
  match parseIntArg limArg 500 with
  | none => .crash "ValueError"
  | some limit =>
    match parseIntArg offArg 0 with
    | none => .crash "ValueError"
    | some offset =>
      match pathArg with
      | .nulQ _ => .crash "ValueError"
      | pq =>
        let base := resolveBase root pq
        if !fs.pathExists base || !fs.isDir base || !List.isPrefixOf root base then
          .invalidPath
        else
          .ok
            { name := (base.getLast?).getD (pathStr root)
            , path := if List.isPrefixOf root base then relPosixOf root base else ""
            , fullPath := pathStr base }
            (children_of pats (fs.scanOk base) (fs.entries base) offset limit)

/-! ## The `/api/copy` handler (`api_copy`) -/

/-- One entry of the request's `files` list: the client sends absolute
`fullPath` strings, but a relative string is possible and is resolved by
`Path(raw).resolve()` against the server process's current working
directory; the body is arbitrary JSON, so a member may also be a
non-string, on which `Path(raw)` raises `TypeError` and the whole request
crashes. -/
inductive RawPath where
  | abs (segs : List String)
  | rel (segs : List String)
  | nonStr
deriving DecidableEq, Repr

/-- Whether an entry is a non-string JSON member. -/
def RawPath.isNonStr : RawPath → Bool
  | .nonStr => true
  | _ => false

/-- `Path(raw).resolve()`: absolute entries stand alone, relative entries
are joined onto the process CWD.  The `nonStr` arm is never consulted
(`Path(raw)` raises on it first); the value is arbitrary. -/
def resolveRaw (cwd : List String) : RawPath → List String
  | .abs segs => segs
  | .rel segs => cwd ++ segs
  | .nonStr => cwd

/-- The filesystem facts `api_copy` consults. -/
structure CopyFs where
  pathExists : List String → Bool
  isFile : List String → Bool
  content : List String → List Nat

/-- The per-entry validity check of the copy loop: resolved path inside
`ROOT`, existing, and a regular file. -/
def copyEntryValid (fs : CopyFs) (root cwd : List String) (raw : RawPath) : Bool :=
  let p := resolveRaw cwd raw
  List.isPrefixOf root p && fs.pathExists p && fs.isFile p

/-- The Markdown block the copy loop emits for one surviving path: bolded
root-relative heading, then the fenced content (binary and error notes use
a plain three-backtick fence). -/
def copySnippet (fs : CopyFs) (maxBytes : Nat) (root : List String)
    (p : List String) : String :=
  let rel := String.intercalate "/" (p.drop root.length)
  let lang := detect_language rel
  let r := read_text_sampled maxBytes (fs.content p)
  if r.note == some "binary" then
    "**" ++ rel ++ "**\n```\n<Binary file omitted>\n```\n\n"
  else if r.note == some "error" then
    "**" ++ rel ++ "**\n```\n" ++ r.text ++ "\n```\n\n"
  else
    "**" ++ rel ++ "**\n" ++ dynamic_fence r.text lang ++ "\n"

/-- The `files` member of the posted JSON body: unparsable JSON and a
missing key both yield the empty list, while a non-list value is rejected
with the 400. -/
inductive FilesField where
  | missing
  | nonList
  | list (raws : List RawPath)
deriving DecidableEq, Repr

/-- Outcome of a copy request: the "files must be a list" 400, an uncaught
exception (Flask's 500), or a 200 with the concatenated Markdown text. -/
inductive CopyOut where
  | badRequest
  | crash (msg : String)
  | ok (text : String)
deriving DecidableEq, Repr

/-- Models the `api_copy` handler: reject a non-list `files`; a list with a
non-string member makes `Path(raw)` raise `TypeError` when the loop reaches
it, so the whole request crashes (the partial output is discarded);
otherwise render and concatenate a snippet per entry that resolves inside
`ROOT` to an existing regular file, silently dropping the rest. -/
def api_copy (fs : CopyFs) (maxBytes : Nat) (root cwd : List String)
    (body : FilesField) : CopyOut :=
  match body with
  | .nonList => .badRequest
  | .missing => .ok ""
  | .list raws =>
    if raws.any RawPath.isNonStr then .crash "TypeError"
    else
      .ok (String.join (raws.filterMap (fun raw =>
        if copyEntryValid fs root cwd raw then
          some (copySnippet fs maxBytes root (resolveRaw cwd raw))
        else none)))

/-! # Theorems -/

/-! ## Dynamic fence (claim C3) -/

theorem longestRunAux_ge (cs : List Char) :
    ∀ cur best, cur ≤ longestRunAux cs cur best ∧ best ≤ longestRunAux cs cur best := by
  induction cs with
  | nil => intro cur best; constructor <;> simp [longestRunAux]
  | cons c cs ih =>
    intro cur best
    by_cases hc : c = backtickChar
    · have h := ih (cur + 1) best
      simp only [longestRunAux, hc, beq_self_eq_true, if_true]
      omega
    · have h := ih 0 (max cur best)
      have hbeq : (c == backtickChar) = false := by simp [hc]
      simp only [longestRunAux, hbeq, Bool.false_eq_true, if_false]
      constructor <;> omega

theorem longestRunAux_of_prefix (k : Nat) :
    ∀ (cs : List Char) (cur best : Nat),
      List.replicate k backtickChar <+: cs →
      cur + k ≤ longestRunAux cs cur best := by
  induction k with
  | zero =>
    intro cs cur best _
    simpa using (longestRunAux_ge cs cur best).1
  | succ k ih =>
    intro cs cur best hp
    obtain ⟨t, ht⟩ := hp
    cases cs with
    | nil => simp [List.replicate_succ] at ht
    | cons c cs2 =>
      rw [List.replicate_succ, List.cons_append] at ht
      obtain ⟨hc, hrest⟩ := List.cons.inj ht
      subst hc
      simp only [longestRunAux, beq_self_eq_true, if_true]
      have := ih cs2 (cur + 1) best ⟨t, hrest⟩
      omega

theorem longestRunAux_of_infix (k : Nat) :
    ∀ (cs : List Char),
      List.IsInfix (List.replicate k backtickChar) cs →
      ∀ cur best, k ≤ longestRunAux cs cur best := by
  intro cs
  induction cs with
  | nil =>
    intro h cur best
    have hk : List.replicate k backtickChar = [] := List.eq_nil_of_infix_nil h
    have : k = 0 := by simpa using congrArg List.length hk
    omega
  | cons c cs2 ih =>
    intro h cur best
    rcases List.infix_cons_iff.mp h with hpre | hinf
    · have := longestRunAux_of_prefix k (c :: cs2) cur best hpre
      omega
    · by_cases hc : c = backtickChar
      · have := ih hinf (cur + 1) best
        simp only [longestRunAux, hc, beq_self_eq_true, if_true]
        omega
      · have := ih hinf 0 (max cur best)
        have hbeq : (c == backtickChar) = false := by simp [hc]
        simp only [longestRunAux, hbeq, Bool.false_eq_true, if_false]
        omega

/-- C3: for every content string `C` whose longest backtick run has length
`k`, `_dynamic_fence` picks a fence of length `max(3, k + 1)`, which is
strictly greater than `k` and at least 3; consequently the content never
contains a run of `fence length` consecutive backticks (the fence cannot be
terminated early from inside), and the emitted block is exactly
fence ++ language tag, newline, content, newline, fence, newline. -/
theorem dynamic_fence_correct (text lang : String) :
    dynamicFenceLen text = max 3 (longestBacktickRun text + 1) ∧
    longestBacktickRun text < dynamicFenceLen text ∧
    3 ≤ dynamicFenceLen text ∧
    ¬ List.IsInfix (List.replicate (dynamicFenceLen text) backtickChar) text.data ∧
    dynamic_fence text lang =
      backticks (dynamicFenceLen text) ++ lang ++ "\n" ++ text ++ "\n" ++
        backticks (dynamicFenceLen text) ++ "\n" := by
  refine ⟨rfl, ?_, ?_, ?_, rfl⟩
  · simp only [dynamicFenceLen]; omega
  · simp only [dynamicFenceLen]; omega
  · intro h
    have hle := longestRunAux_of_infix (dynamicFenceLen text) text.data h 0 0
    have : dynamicFenceLen text ≤ longestBacktickRun text := hle
    simp only [dynamicFenceLen] at this
    omega

/-! ## Binary sniffing (claim C5) -/

/-- C5: a file with a NUL byte within the first `BINARY_SNIFF_BYTES = 4096`
bytes renders as the fixed placeholder with `truncated = false` and the
`binary` note, whatever the configured size cap; and the result depends
only on the sniffed prefix, so no bytes beyond the sniff window influence
the outcome (the extension is not even an input of `_read_text_sampled`). -/
theorem read_text_sampled_binary (maxBytes : Nat) (bytes : List Nat)
    (h : 0 ∈ bytes.take BINARY_SNIFF_BYTES) :
    read_text_sampled maxBytes bytes =
      { text := "<Binary file omitted>", truncated := false, note := some "binary" } ∧
    ∀ (maxBytes2 : Nat) (bytes2 : List Nat),
      bytes2.take BINARY_SNIFF_BYTES = bytes.take BINARY_SNIFF_BYTES →
      read_text_sampled maxBytes2 bytes2 = read_text_sampled maxBytes bytes := by
  constructor
  · simp only [read_text_sampled]
    rw [if_pos h]
  · intro maxBytes2 bytes2 heq
    have h2 : 0 ∈ bytes2.take BINARY_SNIFF_BYTES := by rw [heq]; exact h
    simp only [read_text_sampled]
    rw [if_pos h2, if_pos h]

/-- Witness for C5 at a one-byte NUL file. -/
theorem read_text_sampled_binary_witness :
    0 ∈ ([0] : List Nat).take BINARY_SNIFF_BYTES ∧
    read_text_sampled MAX_FILE_BYTES_default [0] =
      { text := "<Binary file omitted>", truncated := false, note := some "binary" } :=
  ⟨by decide, (read_text_sampled_binary MAX_FILE_BYTES_default [0] (by decide)).1⟩

/-! ## Size capping (claim C4) -/

/-- C4: for a readable non-binary file of exactly `MAX_FILE_BYTES + 1`
bytes, `_read_text_sampled` reports `truncated = true`, reads exactly
`MAX_FILE_BYTES` bytes, and prepends the notice naming the original size
and the cap to the decoded text; for a file of at most `MAX_FILE_BYTES`
bytes it reports `truncated = false` and returns the decoded content with
nothing prepended. -/
theorem read_text_sampled_truncation (maxBytes : Nat) (bytes : List Nat)
    (hnb : 0 ∉ bytes.take BINARY_SNIFF_BYTES) :
    (bytes.length = maxBytes + 1 →
      (read_text_sampled maxBytes bytes).truncated = true ∧
      (bytes.take (min bytes.length maxBytes)).length = maxBytes ∧
      (read_text_sampled maxBytes bytes).text =
        truncNote bytes.length maxBytes ++ "\n" ++
          utf8DecodeReplace (bytes.take maxBytes) ∧
      truncNote bytes.length maxBytes =
        "<Truncated: " ++ toString bytes.length ++ " bytes > " ++
          toString maxBytes ++ " byte preview>") ∧
    (bytes.length ≤ maxBytes →
      (read_text_sampled maxBytes bytes).truncated = false ∧
      (read_text_sampled maxBytes bytes).text = utf8DecodeReplace bytes) := by
  constructor
  · intro hlen
    have hmin : min bytes.length maxBytes = maxBytes := by omega
    have hgt : decide (bytes.length > maxBytes) = true := by
      simp only [decide_eq_true_eq]; omega
    have hred : read_text_sampled maxBytes bytes =
        { text := truncNote bytes.length maxBytes ++ "\n" ++
            utf8DecodeReplace (bytes.take maxBytes)
        , truncated := true, note := none } := by
      simp only [read_text_sampled]
      rw [if_neg hnb, hmin, hgt]
      simp
    refine ⟨by rw [hred], ?_, by rw [hred], rfl⟩
    rw [List.length_take]
    omega
  · intro hle
    have hmin : min bytes.length maxBytes = bytes.length := by omega
    have hng : decide (bytes.length > maxBytes) = false := by
      simp only [decide_eq_false_iff_not]; omega
    have hred : read_text_sampled maxBytes bytes =
        { text := utf8DecodeReplace bytes, truncated := false, note := none } := by
      simp only [read_text_sampled]
      rw [if_neg hnb, hmin, hng, List.take_length]
      simp
    exact ⟨by rw [hred], by rw [hred]⟩

/-- Witness for C4 with a 3-byte file and a 2-byte cap (the cap is the
environment-configurable `PROMPSTER_MAX_FILE_BYTES`). -/
theorem read_text_sampled_truncation_witness :
    0 ∉ ([104, 105, 106] : List Nat).take BINARY_SNIFF_BYTES ∧
    ([104, 105, 106] : List Nat).length = 2 + 1 ∧
    (read_text_sampled 2 [104, 105, 106]).truncated = true ∧
    (read_text_sampled 2 [104, 105, 106]).text =
      truncNote 3 2 ++ "\n" ++ utf8DecodeReplace ([104, 105, 106].take 2) := by
  have h := (read_text_sampled_truncation 2 [104, 105, 106] (by decide)).1 (by decide)
  exact ⟨by decide, by decide, h.1, h.2.2.1⟩

/-! ## Ignore matcher (claim C6) -/

/-- C6: a path is ignored iff at least one pattern matches it, independent
of pattern order; and for a path matched only by directory-only patterns
(those ending in `/`, tested against the path with a trailing `/`), the
matcher ignores it as a directory and admits it as a file. -/
theorem ignored_dir_only_patterns (pats : List String) (relPosix : String)
    (isDir : Bool) :
    (ignoredRel pats relPosix isDir = true ↔
      ∃ pat ∈ pats, patMatches pat relPosix isDir = true) ∧
    (∀ pats2 : List String, pats2.Perm pats →
      ignoredRel pats2 relPosix isDir = ignoredRel pats relPosix isDir) ∧
    ((∃ pat ∈ pats, endsWithChar pat '/' = true ∧
        fnmatch (relPosix ++ "/") pat = true) →
      (∀ pat ∈ pats, endsWithChar pat '/' = false → fnmatch relPosix pat = false) →
      ignoredRel pats relPosix true = true ∧ ignoredRel pats relPosix false = false) := by
  refine ⟨List.any_eq_true, ?_, ?_⟩
  · intro pats2 hp
    cases h2 : ignoredRel pats relPosix isDir with
    | false =>
      simp only [ignoredRel] at h2 ⊢
      rw [List.any_eq_false] at h2 ⊢
      intro pat hmem
      exact h2 pat (hp.mem_iff.mp hmem)
    | true =>
      simp only [ignoredRel] at h2 ⊢
      rw [List.any_eq_true] at h2 ⊢
      obtain ⟨pat, hmem, hmatch⟩ := h2
      exact ⟨pat, hp.mem_iff.mpr hmem, hmatch⟩
  · intro hex hall
    obtain ⟨pat, hmem, hend, hfn⟩ := hex
    constructor
    · simp only [ignoredRel]
      rw [List.any_eq_true]
      refine ⟨pat, hmem, ?_⟩
      simp [patMatches, hend, hfn]
    · simp only [ignoredRel]
      rw [List.any_eq_false]
      intro q hq
      by_cases he : endsWithChar q '/' = true
      · simp [patMatches, he]
      · have he2 : endsWithChar q '/' = false := by
          rwa [Bool.not_eq_true] at he
        simp [patMatches, he2, hall q hq he2]

/-- Witness for C6 on the default `.git/` pattern and the path `.git`. -/
theorem ignored_dir_only_patterns_witness :
    (∃ pat ∈ [".git/"], endsWithChar pat '/' = true ∧
      fnmatch (".git" ++ "/") pat = true) ∧
    ignoredRel [".git/"] ".git" true = true ∧
    ignoredRel [".git/"] ".git" false = false :=
  ⟨by decide,
    (ignored_dir_only_patterns [".git/"] ".git" true).2.2 (by decide) (by decide)⟩

/-! ## Pagination of the tree provider (claim C1) -/

theorem pyIndex_ofNat (len k : Nat) : pyIndex len (k : Int) = min k len := by
  unfold pyIndex
  rw [if_neg (by omega)]
  have h : ((k : Int)).toNat = k := by omega
  rw [h]

theorem pySlice_ofNat {α : Type} (l : List α) (k n : Nat) :
    pySlice l (k : Int) ((k : Int) + (n : Int)) = (l.drop k).take n := by
  unfold pySlice
  have hb : (k : Int) + (n : Int) = ((k + n : Nat) : Int) := by push_cast; ring
  rw [hb, pyIndex_ofNat, pyIndex_ofNat]
  rcases le_or_lt k l.length with hkl | hkl
  · rw [min_eq_left hkl]
    rcases le_or_lt (k + n) l.length with hknl | hknl
    · rw [min_eq_left hknl, List.drop_take]
      congr 1
      omega
    · rw [min_eq_right (le_of_lt hknl), List.take_length,
        List.take_of_length_le (l := l.drop k) (by rw [List.length_drop]; omega)]
  · rw [min_eq_right (le_of_lt hkl)]
    have h2 : l.drop k = [] := List.drop_eq_nil_of_le (by omega)
    rw [h2, List.take_nil]
    apply List.drop_eq_nil_of_le
    rw [List.length_take]
    omega

theorem children_of_page (pats : List String) (scanOk : Bool)
    (es : List RawEntry) (k n : Nat) :
    (children_of pats scanOk es (k : Int) (n : Int)).children
      = (((keptSorted pats scanOk es).map (mkNode pats)).drop k).take n ∧
    (children_of pats scanOk es (k : Int) (n : Int)).total
      = (keptSorted pats scanOk es).length ∧
    (children_of pats scanOk es (k : Int) (n : Int)).has_more
      = decide (k + n < (keptSorted pats scanOk es).length) := by
  refine ⟨?_, rfl, ?_⟩
  · simp only [children_of]
    rw [pySlice_ofNat, List.map_take, List.map_drop]
  · simp only [children_of]
    apply decide_eq_decide.mpr
    omega

theorem fetchPagesAux_drop (pats : List String) (scanOk : Bool)
    (es : List RawEntry) (N : Nat) (hN : 0 < N) :
    ∀ (fuel off : Nat),
      (keptSorted pats scanOk es).length ≤ off + fuel * N →
      fetchPagesAux pats scanOk es N off fuel
        = ((keptSorted pats scanOk es).map (mkNode pats)).drop off := by
  intro fuel
  induction fuel with
  | zero =>
    intro off h
    simp only [fetchPagesAux]
    symm
    apply List.drop_eq_nil_of_le
    rw [List.length_map]
    simpa using h
  | succ fuel ih =>
    intro off h
    obtain ⟨hch, -, hhm⟩ := children_of_page pats scanOk es off N
    simp only [fetchPagesAux]
    rw [hch, hhm]
    by_cases hc : off + N < (keptSorted pats scanOk es).length
    · have hd : decide (off + N < (keptSorted pats scanOk es).length) = true :=
        decide_eq_true hc
      rw [hd, if_pos rfl]
      have hmul : (fuel + 1) * N = fuel * N + N := by ring
      rw [ih (off + N) (by omega)]
      rw [← List.drop_drop]
      exact List.take_append_drop N _
    · have hd : decide (off + N < (keptSorted pats scanOk es).length) = false :=
        decide_eq_false hc
      rw [hd, if_neg (by simp)]
      rw [List.take_of_length_le]
      rw [List.length_drop, List.length_map]
      omega

theorem fetchAllPages_eq (pats : List String) (scanOk : Bool)
    (es : List RawEntry) (N : Nat) (hN : 0 < N) :
    fetchAllPages pats scanOk es N
      = (keptSorted pats scanOk es).map (mkNode pats) := by
  unfold fetchAllPages
  have h1 : (keptSorted pats scanOk es).length ≤ es.length := by
    unfold keptSorted
    rw [(List.mergeSort_perm _ _).length_eq]
    cases scanOk
    · simp
    · simpa using List.length_filter_le (keepEntry pats) es
  have h2 : (es.length + 1) * 1 ≤ (es.length + 1) * N := Nat.mul_le_mul_left _ hN
  rw [fetchPagesAux_drop pats scanOk es N hN (es.length + 1) 0 (by omega)]
  simp

theorem codeLexLe_total (as bs : List Char) :
    codeLexLe as bs = true ∨ codeLexLe bs as = true := by
  induction as generalizing bs with
  | nil => left; simp [codeLexLe]
  | cons a as ih =>
    cases bs with
    | nil => right; simp [codeLexLe]
    | cons b bs =>
      rcases Nat.lt_trichotomy a.toNat b.toNat with h | h | h
      · left; simp [codeLexLe, h]
      · have hab : a = b := Char.eq_of_val_eq (UInt32.toNat.inj h)
        subst hab
        rcases ih bs with h2 | h2
        · left; simp [codeLexLe, h2]
        · right; simp [codeLexLe, h2]
      · right; simp [codeLexLe, h]

theorem codeLexLe_trans (as : List Char) :
    ∀ (bs cs : List Char), codeLexLe as bs = true → codeLexLe bs cs = true →
      codeLexLe as cs = true := by
  induction as with
  | nil => intro bs cs _ _; simp [codeLexLe]
  | cons a as ih =>
    intro bs cs h1 h2
    cases bs with
    | nil => simp [codeLexLe] at h1
    | cons b bs =>
      cases cs with
      | nil => simp [codeLexLe] at h2
      | cons c cs =>
        simp only [codeLexLe, Bool.or_eq_true, Bool.and_eq_true,
          decide_eq_true_eq, beq_iff_eq] at h1 h2 ⊢
        rcases h1 with h1 | ⟨hab, h1⟩
        · rcases h2 with h2 | ⟨hbc, h2⟩
          · left; omega
          · subst hbc; left; exact h1
        · subst hab
          rcases h2 with h2 | ⟨hbc, h2⟩
          · left; exact h2
          · subst hbc; exact Or.inr ⟨rfl, ih bs cs h1 h2⟩

theorem childLE_trans (a b c : RawEntry) (h1 : childLE a b = true)
    (h2 : childLE b c = true) : childLE a c = true := by
  simp only [childLE, Bool.or_eq_true, Bool.and_eq_true, decide_eq_true_eq,
    beq_iff_eq] at h1 h2 ⊢
  rcases h1 with h1 | ⟨hab, h1⟩
  · rcases h2 with h2 | ⟨hbc, h2⟩
    · left; omega
    · left; omega
  · rcases h2 with h2 | ⟨hbc, h2⟩
    · left; omega
    · exact Or.inr ⟨by omega, codeLexLe_trans _ _ _ h1 h2⟩

theorem childLE_total (a b : RawEntry) : (childLE a b || childLE b a) = true := by
  simp only [childLE, Bool.or_eq_true, Bool.and_eq_true, decide_eq_true_eq,
    beq_iff_eq]
  rcases codeLexLe_total (a.name.data.map Char.toLower) (b.name.data.map Char.toLower)
    with h | h
  · by_cases hk : (if a.isDir then 0 else 1 : Nat) = (if b.isDir then 0 else 1 : Nat)
    · exact Or.inl (Or.inr ⟨hk, h⟩)
    · rcases Nat.lt_or_ge (if a.isDir then 0 else 1 : Nat)
        (if b.isDir then 0 else 1 : Nat) with hlt | hge
      · exact Or.inl (Or.inl hlt)
      · exact Or.inr (Or.inl (by omega))
  · by_cases hk : (if b.isDir then 0 else 1 : Nat) = (if a.isDir then 0 else 1 : Nat)
    · exact Or.inr (Or.inr ⟨hk, h⟩)
    · rcases Nat.lt_or_ge (if b.isDir then 0 else 1 : Nat)
        (if a.isDir then 0 else 1 : Nat) with hlt | hge
      · exact Or.inr (Or.inl hlt)
      · exact Or.inl (Or.inl (by omega))

/-- C1: `_children_of` paginates one fixed filtered sorted list: every page
is the slice `[offset, offset + limit)` of the kept entries sorted
directories-first then by case-insensitive name, `total` is that list's
length, `has_more` holds iff `offset + limit < total`, concatenating the
pages fetched at offsets `0, N, 2N, ...` until `has_more` is false
reproduces the whole list (no duplicates, no gaps), and that list is a
permutation of the filtered (kept) child set, sorted by the
directories-first case-insensitive order. -/
theorem children_of_pagination (pats : List String) (scanOk : Bool)
    (es : List RawEntry) (off lim N : Nat) (hN : 0 < N) :
    (children_of pats scanOk es (off : Int) (lim : Int)).children
      = (((keptSorted pats scanOk es).map (mkNode pats)).drop off).take lim ∧
    (children_of pats scanOk es (off : Int) (lim : Int)).total
      = (keptSorted pats scanOk es).length ∧
    (children_of pats scanOk es (off : Int) (lim : Int)).has_more
      = decide (off + lim < (keptSorted pats scanOk es).length) ∧
    fetchAllPages pats scanOk es N = (keptSorted pats scanOk es).map (mkNode pats) ∧
    (keptSorted pats scanOk es).Perm
      (if scanOk then es.filter (keepEntry pats) else []) ∧
    List.Pairwise (fun a b => childLE a b = true) (keptSorted pats scanOk es) := by
  obtain ⟨h1, h2, h3⟩ := children_of_page pats scanOk es off lim
  refine ⟨h1, h2, h3, fetchAllPages_eq pats scanOk es N hN, ?_, ?_⟩
  · exact List.mergeSort_perm _ _
  · exact List.sorted_mergeSort childLE_trans childLE_total _

/-- Witness for C1 with page size 1. -/
theorem children_of_pagination_witness :
    (0 : Nat) < 1 ∧
    fetchAllPages [] true [] 1 = (keptSorted [] true []).map (mkNode []) :=
  ⟨by decide, (children_of_pagination [] true [] 0 1 1 (by decide)).2.2.2.1⟩

/-! ## Tree endpoint error handling (claim C7) -/

/-- The claim that no values of `offset`/`limit` can cause a call-level
error is refuted: a non-integer `offset` string makes `int()` raise
`ValueError`, an uncaught exception that Flask surfaces as a 500 — a
call-level error, not a 400 and not a skip. -/
theorem api_tree_nonint_offset_counterexample :
    api_tree ⟨fun _ => true, fun _ => true, fun _ => true, fun _ => []⟩ []
      [] .emptyQ (some "abc") none = .crash "ValueError" := rfl

/-- C7 (amended): when `offset` and `limit` parse as integers — any
integers, negative or huge — and the `path` value carries no embedded NUL
byte (so `resolve()` does not raise), the handler never raises: a missing,
non-directory, or out-of-root `path` yields exactly the client-visible
"Invalid path" 400 and every other request succeeds; per-entry failures
degrade to skipping (entries whose stat failed or which resolve outside
the root are never kept) and an unscannable directory degrades to an empty
child list.  A `path` value with an embedded NUL byte, by contrast, makes
`(ROOT / rel).resolve()` raise `ValueError` before the path check — an
uncaught 500, shown in the last conjunct. -/
theorem api_tree_error_handling (fs : SrvFs) (pats : List String)
    (root : List String) (pq : PathQ) (offArg limArg : Option String)
    (oi li : Int)
    (hoff : parseIntArg offArg 0 = some oi)
    (hlim : parseIntArg limArg 500 = some li)
    (hpq : ∀ raw, pq ≠ PathQ.nulQ raw) :
    (∀ msg, api_tree fs pats root pq offArg limArg ≠ .crash msg) ∧
    ((fs.pathExists (resolveBase root pq) = false ∨
      fs.isDir (resolveBase root pq) = false ∨
      List.isPrefixOf root (resolveBase root pq) = false) →
      api_tree fs pats root pq offArg limArg = .invalidPath) ∧
    (fs.pathExists (resolveBase root pq) = true →
      fs.isDir (resolveBase root pq) = true →
      List.isPrefixOf root (resolveBase root pq) = true →
      ∃ p c, api_tree fs pats root pq offArg limArg = .ok p c) ∧
    (∀ e : RawEntry, e.statFail = true ∨ e.inRoot = false →
      keepEntry pats e = false) ∧
    keptSorted pats false (fs.entries (resolveBase root pq)) = [] ∧
    (∀ raw, api_tree fs pats root (.nulQ raw) offArg limArg
      = .crash "ValueError") := by
  have hred : api_tree fs pats root pq offArg limArg =
      (if !fs.pathExists (resolveBase root pq) ||
          !fs.isDir (resolveBase root pq) ||
          !List.isPrefixOf root (resolveBase root pq) then
        TreeOut.invalidPath
      else
        TreeOut.ok
          { name := ((resolveBase root pq).getLast?).getD (pathStr root)
          , path := if List.isPrefixOf root (resolveBase root pq) then
              relPosixOf root (resolveBase root pq) else ""
          , fullPath := pathStr (resolveBase root pq) }
          (children_of pats (fs.scanOk (resolveBase root pq))
            (fs.entries (resolveBase root pq)) oi li)) := by
    cases pq with
    | nulQ raw => exact absurd rfl (hpq raw)
    | emptyQ => simp only [api_tree]; rw [hlim, hoff]
    | relQ segs => simp only [api_tree]; rw [hlim, hoff]
    | absQ segs => simp only [api_tree]; rw [hlim, hoff]
  refine ⟨?_, ?_, ?_, ?_, ?_, ?_⟩
  · intro msg
    rw [hred]
    by_cases hc : (!fs.pathExists (resolveBase root pq) ||
        !fs.isDir (resolveBase root pq) ||
        !List.isPrefixOf root (resolveBase root pq)) = true
    · simp [hc]
    · simp [hc]
  · intro hinv
    rw [hred]
    have hc : (!fs.pathExists (resolveBase root pq) ||
        !fs.isDir (resolveBase root pq) ||
        !List.isPrefixOf root (resolveBase root pq)) = true := by
      rcases hinv with h | h | h <;> simp [h]
    simp [hc]
  · intro h1 h2 h3
    have hok : api_tree fs pats root pq offArg limArg =
        .ok { name := ((resolveBase root pq).getLast?).getD (pathStr root)
            , path := relPosixOf root (resolveBase root pq)
            , fullPath := pathStr (resolveBase root pq) }
          (children_of pats (fs.scanOk (resolveBase root pq))
            (fs.entries (resolveBase root pq)) oi li) := by
      rw [hred]
      simp [h1, h2, h3]
    exact ⟨_, _, hok⟩
  · intro e he
    unfold keepEntry
    rcases he with h | h <;> simp [h]
  · unfold keptSorted
    simp
  · intro raw
    simp only [api_tree]
    rw [hlim, hoff]

/-- Witness for C7 with negative and positive integer arguments and a clean
path. -/
theorem api_tree_error_handling_witness :
    parseIntArg (some " -3 ") 0 = some (-3) ∧
    parseIntArg (some "7") 500 = some 7 ∧
    (∀ msg,
      api_tree ⟨fun _ => true, fun _ => true, fun _ => true, fun _ => []⟩ []
        [] .emptyQ (some " -3 ") (some "7") ≠ .crash msg) :=
  ⟨by decide, by decide,
    (api_tree_error_handling
      ⟨fun _ => true, fun _ => true, fun _ => true, fun _ => []⟩ [] [] .emptyQ
      (some " -3 ") (some "7") (-3) 7 (by decide) (by decide)
      (fun raw h => PathQ.noConfusion h)).1⟩

/-! ## Copy endpoint error handling (claim C8) -/

/-- The claim that every `/copy` request body is answered with a 200 is
refuted: a body whose `files` member is present but not a list is answered
with the "files must be a list" 400. -/
theorem api_copy_nonlist_counterexample :
    api_copy ⟨fun _ => false, fun _ => false, fun _ => []⟩
      MAX_FILE_BYTES_default [] [] .nonList = .badRequest := rfl

/-- C8 (amended): whenever the posted `files` member is a list all of whose
members are strings (a missing member or unparsable JSON body degrades to
the empty list), the copy endpoint answers 200 with the concatenation, in
caller order, of one rendered block per entry that resolves inside the root
to an existing regular file, silently dropping all other entries; in
particular a list with no valid entry yields the empty string, not an
error.  A list containing a non-string member, by contrast, makes
`Path(raw)` raise `TypeError` — an uncaught 500, shown in the last
conjunct. -/
theorem api_copy_list_responses (fs : CopyFs) (maxBytes : Nat)
    (root cwd : List String) (raws : List RawPath)
    (hstr : ∀ raw ∈ raws, raw.isNonStr = false) :
    api_copy fs maxBytes root cwd (.list raws)
      = .ok (String.join ((raws.filter (copyEntryValid fs root cwd)).map
          (fun raw => copySnippet fs maxBytes root (resolveRaw cwd raw)))) ∧
    api_copy fs maxBytes root cwd .missing = .ok "" ∧
    ((∀ raw ∈ raws, copyEntryValid fs root cwd raw = false) →
      api_copy fs maxBytes root cwd (.list raws) = .ok "") ∧
    (∀ raws2 : List RawPath, RawPath.nonStr ∈ raws2 →
      api_copy fs maxBytes root cwd (.list raws2) = .crash "TypeError") := by
  have hfm : ∀ (l : List RawPath),
      l.filterMap (fun raw => if copyEntryValid fs root cwd raw then
        some (copySnippet fs maxBytes root (resolveRaw cwd raw)) else none)
      = (l.filter (copyEntryValid fs root cwd)).map
          (fun raw => copySnippet fs maxBytes root (resolveRaw cwd raw)) := by
    intro l
    induction l with
    | nil => rfl
    | cons x xs ih =>
      by_cases hx : copyEntryValid fs root cwd x = true
      · simp [List.filterMap_cons, List.filter_cons, hx, ih]
      · simp [List.filterMap_cons, List.filter_cons, hx, ih]
  have hany : raws.any RawPath.isNonStr = false := by
    rw [List.any_eq_false]
    intro raw hmem
    simp [hstr raw hmem]
  refine ⟨?_, rfl, ?_, ?_⟩
  · simp only [api_copy]
    rw [hany, if_neg (by simp), hfm]
  · intro hall
    simp only [api_copy]
    rw [hany, if_neg (by simp), hfm, List.filter_eq_nil_iff.mpr ?_]
    · rfl
    · intro a ha
      simp [hall a ha]
  · intro raws2 hmem
    simp only [api_copy]
    rw [if_pos]
    rw [List.any_eq_true]
    exact ⟨RawPath.nonStr, hmem, rfl⟩

/-- Witness for C8: a string list whose single entry is out of root yields
the empty 200. -/
theorem api_copy_list_responses_witness :
    (∀ raw ∈ [RawPath.abs ["x"]], RawPath.isNonStr raw = false) ∧
    (∀ raw ∈ [RawPath.abs ["x"]], copyEntryValid
      ⟨fun _ => false, fun _ => false, fun _ => []⟩ [] [] raw = false) ∧
    api_copy ⟨fun _ => false, fun _ => false, fun _ => []⟩
      MAX_FILE_BYTES_default [] [] (.list [RawPath.abs ["x"]]) = .ok "" := by
  refine ⟨by decide, by decide, ?_⟩
  exact (api_copy_list_responses ⟨fun _ => false, fun _ => false, fun _ => []⟩
    MAX_FILE_BYTES_default [] [] [RawPath.abs ["x"]] (by decide)).2.2.1 (by decide)

/-! ## Absolute paths accepted by the tree endpoint (claim C9) -/

/-- C9: for a directory `D` inside the root, querying the tree endpoint
with `path` equal to `D`'s absolute path produces the same response as
querying with `D`'s root-relative path — `ROOT / rel` in pathlib discards
`ROOT` when `rel` is absolute — and for an existing in-root directory the
absolute form is accepted with a full 200 payload, although the interface
documents `path` as relative (the bundled client always sends absolute
`fullPath` values). -/
theorem api_tree_absolute_equals_relative (fs : SrvFs) (pats : List String)
    (root d : List String) (offArg limArg : Option String)
    (hex : fs.pathExists (root ++ d) = true)
    (hdir : fs.isDir (root ++ d) = true) :
    api_tree fs pats root (.absQ (root ++ d)) offArg limArg
      = api_tree fs pats root (.relQ d) offArg limArg ∧
    ∃ p c, api_tree fs pats root (.absQ (root ++ d)) none none = .ok p c := by
  constructor
  · rfl
  · have hpre : List.isPrefixOf root (root ++ d) = true :=
      List.isPrefixOf_iff_prefix.mpr (List.prefix_append root d)
    have hok : api_tree fs pats root (.absQ (root ++ d)) none none =
        .ok { name := ((root ++ d).getLast?).getD (pathStr root)
            , path := relPosixOf root (root ++ d)
            , fullPath := pathStr (root ++ d) }
          (children_of pats (fs.scanOk (root ++ d)) (fs.entries (root ++ d))
            0 500) := by
      simp only [api_tree, parseIntArg, resolveBase]
      rw [hex, hdir, hpre]
      simp
    exact ⟨_, _, hok⟩

/-- Witness for C9 on a one-directory filesystem. -/
theorem api_tree_absolute_equals_relative_witness :
    (fun (_ : List String) => true) (["r"] ++ ["d"]) = true ∧
    (api_tree ⟨fun _ => true, fun _ => true, fun _ => true, fun _ => []⟩ []
        ["r"] (.absQ (["r"] ++ ["d"])) none none
      = api_tree ⟨fun _ => true, fun _ => true, fun _ => true, fun _ => []⟩ []
        ["r"] (.relQ ["d"]) none none) :=
  ⟨rfl,
    (api_tree_absolute_equals_relative
      ⟨fun _ => true, fun _ => true, fun _ => true, fun _ => []⟩ [] ["r"] ["d"]
      none none (by decide) (by decide)).1⟩

/-! ## Relative copy entries resolve against the process CWD (claim C10) -/

/-- C10: a relative entry in the `files` list is resolved against the
server process's working directory, not the configured root: when the
CWD-resolved location fails the validity check the entry is silently
dropped even though the same path relative to the root names an existing
in-root file, and when the CWD-resolved location happens to be a valid
in-root file it is that file which gets rendered. -/
theorem api_copy_relative_resolved_against_cwd (fs : CopyFs) (maxBytes : Nat)
    (root cwd s : List String)
    (hex : fs.pathExists (root ++ s) = true)
    (hfile : fs.isFile (root ++ s) = true) :
    resolveRaw cwd (.rel s) = cwd ++ s ∧
    (copyEntryValid fs root cwd (.rel s) = false →
      api_copy fs maxBytes root cwd (.list [.rel s]) = .ok "") ∧
    (copyEntryValid fs root cwd (.rel s) = true →
      api_copy fs maxBytes root cwd (.list [.rel s])
        = .ok (copySnippet fs maxBytes root (cwd ++ s))) := by
  have hany : [RawPath.rel s].any RawPath.isNonStr = false := rfl
  refine ⟨rfl, ?_, ?_⟩
  · intro hbad
    simp only [api_copy, List.filterMap_cons, List.filterMap_nil]
    rw [hany, if_neg (by simp), hbad]
    simp
    rfl
  · intro hgood
    simp only [api_copy, List.filterMap_cons, List.filterMap_nil]
    rw [hany, if_neg (by simp), hgood]
    simp only [if_true]
    have hj : String.join [copySnippet fs maxBytes root (resolveRaw cwd (.rel s))]
        = copySnippet fs maxBytes root (cwd ++ s) := by
      show String.join [copySnippet fs maxBytes root (cwd ++ s)]
        = copySnippet fs maxBytes root (cwd ++ s)
      apply String.ext
      simp [String.join]
    rw [hj]

/-- Witness for C10: with root `/r`, CWD `/c` and entry `f`, the in-root
file `/r/f` exists but the request renders nothing. -/
theorem api_copy_relative_resolved_against_cwd_witness :
    (fun p => decide (p = ["r", "f"]) : List String → Bool) (["r"] ++ ["f"]) = true ∧
    copyEntryValid
      ⟨fun p => decide (p = ["r", "f"]), fun p => decide (p = ["r", "f"]),
        fun _ => []⟩ ["r"] ["c"] (.rel ["f"]) = false ∧
    api_copy
      ⟨fun p => decide (p = ["r", "f"]), fun p => decide (p = ["r", "f"]),
        fun _ => []⟩ MAX_FILE_BYTES_default ["r"] ["c"] (.list [.rel ["f"]])
      = .ok "" := by
  refine ⟨by decide, by decide, ?_⟩
  exact (api_copy_relative_resolved_against_cwd
    ⟨fun p => decide (p = ["r", "f"]), fun p => decide (p = ["r", "f"]),
      fun _ => []⟩ MAX_FILE_BYTES_default ["r"] ["c"] ["f"]
    (by decide) (by decide)).2.1 (by decide)

/-! ## Exclusion precedence in the selection model (claim C2) -/

theorem lookupCM_mem (cm : List (String × CheckVal)) (fp : String) (v : CheckVal)
    (h : lookupCM cm fp = some v) : (fp, v) ∈ cm := by
  unfold lookupCM at h
  cases hf : cm.find? (fun kv => kv.1 == fp) with
  | none => rw [hf] at h; simp at h
  | some kv =>
    rw [hf] at h
    simp only [Option.map_some', Option.some.injEq] at h
    have h1 := List.mem_of_find?_eq_some hf
    have h2 : kv.1 = fp := by simpa using List.find?_some hf
    cases kv with
    | mk a b =>
      have ha : a = fp := h2
      have hb : b = v := h
      rw [← ha, ← hb]
      exact h1

theorem mem_lookupCM_of_nodup (cm : List (String × CheckVal))
    (hnodup : (cm.map (fun kv => kv.1)).Nodup) (fp : String) (v : CheckVal)
    (h : (fp, v) ∈ cm) : lookupCM cm fp = some v := by
  induction cm with
  | nil => simp at h
  | cons kv rest ih =>
    rw [List.map_cons, List.nodup_cons] at hnodup
    rcases List.mem_cons.mp h with rfl | hrest
    · unfold lookupCM
      rw [List.find?_cons_of_pos _ (by simp)]
      simp
    · by_cases hk : kv.1 = fp
      · exfalso
        apply hnodup.1
        rw [List.mem_map]
        exact ⟨(fp, v), hrest, hk.symm⟩
      · unfold lookupCM
        rw [List.find?_cons_of_neg _ (by simp [hk])]
        exact ih hnodup.2 hrest

theorem mem_filesOfForest_cases (ks : List CTree) (f : String)
    (h : f ∈ filesOfForest ks) :
    CTree.file f ∈ ks ∨ ∃ fp kk, CTree.dir fp kk ∈ ks ∧ f ∈ filesOfForest kk := by
  induction ks with
  | nil => simp [filesOfForest] at h
  | cons t ts ih =>
    cases t with
    | file fp =>
      simp only [filesOfForest] at h
      rcases List.mem_cons.mp h with rfl | h2
      · left; exact List.mem_cons_self _ _
      · rcases ih h2 with h3 | ⟨fp2, kk2, h3, h4⟩
        · left; exact List.mem_cons_of_mem _ h3
        · right; exact ⟨fp2, kk2, List.mem_cons_of_mem _ h3, h4⟩
    | dir fp kk =>
      simp only [filesOfForest] at h
      rcases List.mem_append.mp h with h2 | h2
      · right; exact ⟨fp, kk, List.mem_cons_self _ _, h2⟩
      · rcases ih h2 with h3 | ⟨fp2, kk2, h3, h4⟩
        · left; exact List.mem_cons_of_mem _ h3
        · right; exact ⟨fp2, kk2, List.mem_cons_of_mem _ h3, h4⟩

theorem dirPath_mem_nodes (ks : List CTree) (fp : String) (kk : List CTree)
    (h : CTree.dir fp kk ∈ ks) : fp ∈ nodesOfForest ks := by
  induction ks with
  | nil => simp at h
  | cons t ts ih =>
    rcases List.mem_cons.mp h with heq | h2
    · rw [← heq]
      simp [nodesOfForest]
    · cases t with
      | file fp2 =>
        simp only [nodesOfForest]
        exact List.mem_cons_of_mem _ (ih h2)
      | dir fp2 kk2 =>
        simp only [nodesOfForest]
        exact List.mem_cons_of_mem _ (List.mem_append.mpr (Or.inr (ih h2)))

theorem nodes_mono (ks : List CTree) (fp : String) (kk : List CTree) (p : String)
    (h : CTree.dir fp kk ∈ ks) (hp : p ∈ nodesOfForest kk) :
    p ∈ nodesOfForest ks := by
  induction ks with
  | nil => simp at h
  | cons t ts ih =>
    rcases List.mem_cons.mp h with heq | h2
    · rw [← heq]
      simp only [nodesOfForest]
      exact List.mem_cons_of_mem _ (List.mem_append.mpr (Or.inl hp))
    · cases t with
      | file fp2 =>
        simp only [nodesOfForest]
        exact List.mem_cons_of_mem _ (ih h2)
      | dir fp2 kk2 =>
        simp only [nodesOfForest]
        exact List.mem_cons_of_mem _ (List.mem_append.mpr (Or.inr (ih h2)))

theorem filesOfForest_subset_nodes (ks : List CTree) (f : String)
    (h : f ∈ filesOfForest ks) : f ∈ nodesOfForest ks := by
  match ks with
  | [] => simp [filesOfForest] at h
  | .file fp :: ts =>
    simp only [filesOfForest] at h
    rcases List.mem_cons.mp h with rfl | h2
    · simp [nodesOfForest]
    · simp only [nodesOfForest]
      exact List.mem_cons_of_mem _ (filesOfForest_subset_nodes ts f h2)
  | .dir fp kk :: ts =>
    simp only [filesOfForest] at h
    simp only [nodesOfForest]
    rcases List.mem_append.mp h with h2 | h2
    · exact List.mem_cons_of_mem _
        (List.mem_append.mpr (Or.inl (filesOfForest_subset_nodes kk f h2)))
    · exact List.mem_cons_of_mem _
        (List.mem_append.mpr (Or.inr (filesOfForest_subset_nodes ts f h2)))
termination_by szForest ks
decreasing_by
  all_goals simp [szForest]
  all_goals omega

/-- Completeness of the breadth-first collection: when every node strictly
below the queued roots passes the blacklist/override guard, every file
below a queued root is collected. -/
theorem bfsFiles_complete (allow : List String) (q : List CTree) (f : String)
    (hgood : ∀ t ∈ q, ∀ p ∈ nodesOfForest t.kids, allowOkB allow p = true)
    (hf : ∃ t ∈ q, f ∈ filesOfForest t.kids) :
    f ∈ bfsFiles allow q := by
  match q with
  | [] =>
    obtain ⟨t, ht, -⟩ := hf
    simp at ht
  | t :: rest =>
    have hgood2 : ∀ t2 ∈ rest ++
        t.kids.filter (fun k => k.isDirNode && allowOkB allow k.path),
        ∀ p ∈ nodesOfForest t2.kids, allowOkB allow p = true := by
      intro t2 ht2 p hp
      rcases List.mem_append.mp ht2 with h | h
      · exact hgood t2 (List.mem_cons_of_mem _ h) p hp
      · have ht2k : t2 ∈ t.kids := (List.mem_filter.mp h).1
        apply hgood t (List.mem_cons_self _ _) p
        cases t2 with
        | file fp2 => simp [CTree.kids, nodesOfForest] at hp
        | dir fp2 kk2 =>
          exact nodes_mono t.kids fp2 kk2 p ht2k (by simpa [CTree.kids] using hp)
    obtain ⟨t0, ht0, hft0⟩ := hf
    simp only [bfsFiles]
    rw [List.mem_append]
    rcases List.mem_cons.mp ht0 with heq | ht0rest
    · have hft : f ∈ filesOfForest t.kids := heq ▸ hft0
      rcases mem_filesOfForest_cases t.kids f hft with hdirect | ⟨fp, kk, hmem, hfkk⟩
      · left
        rw [List.mem_filterMap]
        exact ⟨.file f, hdirect, rfl⟩
      · right
        apply bfsFiles_complete allow _ f hgood2
        refine ⟨.dir fp kk, ?_, by simpa [CTree.kids] using hfkk⟩
        rw [List.mem_append]
        right
        rw [List.mem_filter]
        refine ⟨hmem, ?_⟩
        have hok := hgood t (List.mem_cons_self _ _) fp
          (dirPath_mem_nodes t.kids fp kk hmem)
        simp [CTree.isDirNode, CTree.path, hok]
    · right
      apply bfsFiles_complete allow _ f hgood2
      exact ⟨t0, List.mem_append.mpr (Or.inl ht0rest), hft0⟩
termination_by szForest q
decreasing_by
  all_goals
    have h1 := szForest_filter_le (fun k => k.isDirNode && allowOkB allow k.path) t.kids
    have h2 := szForest_kids_lt t
    have h3 := szForest_append rest
      (t.kids.filter fun k => k.isDirNode && allowOkB allow k.path)
    have h4 : szForest (t :: rest) = szForest [t] + szForest rest := by
      cases t <;> simp [szForest]
    omega

/-- C2 (amended): in a selection state whose key map is an object (unique
keys) with a directory marked `'dir'` and exactly one of its descendant
files marked excluded (`false`), the effective preview set never contains
the excluded file — unconditionally: explicit exclusion wins over inherited
directory selection regardless of the order the marks were set in (the
state alone decides) and regardless of any blacklist state — and, provided
additionally every path under the directory passes the blacklist/override
guard, it contains every other descendant file.  (Blacklisted descendants
without an override are dropped even when not excluded; see the
counterexample.) -/
theorem updatePreview_exclusion (cm : List (String × CheckVal))
    (allow : List String) (lut : String → Option CTree) (dp x : String)
    (t : CTree)
    (hnodup : (cm.map (fun kv => kv.1)).Nodup)
    (hdir : lookupCM cm dp = some CheckVal.sub)
    (hlut : lut dp = some t)
    (hx : lookupCM cm x = some CheckVal.off)
    (hxd : x ∈ descFiles t)
    (honly : ∀ f ∈ descFiles t, f ≠ x → lookupCM cm f ≠ some CheckVal.off) :
    x ∉ updatePreviewFiles cm allow lut ∧
    ((∀ p ∈ nodesBelow t, allowOkB allow p = true) →
      ∀ f ∈ descFiles t, f ≠ x → f ∈ updatePreviewFiles cm allow lut) := by
  have hxek : x ∈ excludedKeys cm := by
    unfold excludedKeys
    rw [List.mem_map]
    refine ⟨(x, CheckVal.off), ?_, rfl⟩
    rw [List.mem_filter]
    exact ⟨lookupCM_mem cm x _ hx, by simp⟩
  constructor
  · intro hmem
    simp only [updatePreviewFiles] at hmem
    rw [List.mem_filter] at hmem
    have hcon : (excludedKeys cm).contains x = true := List.elem_iff.mpr hxek
    rw [hcon] at hmem
    simpa using hmem.2
  · intro hgood f hf hfx
    have hfek : f ∉ excludedKeys cm := by
      intro hmem
      unfold excludedKeys at hmem
      rw [List.mem_map] at hmem
      obtain ⟨kv, hkvmem, hkv1⟩ := hmem
      rw [List.mem_filter] at hkvmem
      have hkv2 : kv.2 = CheckVal.off := by simpa using hkvmem.2
      have hkveq : kv = (f, CheckVal.off) := by
        obtain ⟨a, b⟩ := kv
        simp only [Prod.mk.injEq]
        exact ⟨hkv1, hkv2⟩
      exact honly f hf hfx
        (mem_lookupCM_of_nodup cm hnodup f CheckVal.off (hkveq ▸ hkvmem.1))
    have hcon : (excludedKeys cm).contains f = false := by
      cases hc : (excludedKeys cm).contains f
      · rfl
      · exact absurd (List.elem_iff.mp hc) hfek
    have hallow : allowOkB allow f = true :=
      hgood f (filesOfForest_subset_nodes t.kids f hf)
    have hbfs : f ∈ collectAllFilesUnder allow t := by
      unfold collectAllFilesUnder
      apply bfsFiles_complete allow [t] f
      · intro t2 ht2 p hp
        rw [List.mem_singleton] at ht2
        subst ht2
        exact hgood p hp
      · exact ⟨t, List.mem_singleton.mpr rfl, hf⟩
    simp only [updatePreviewFiles]
    rw [List.mem_filter]
    constructor
    · rw [List.mem_append]
      right
      rw [List.mem_flatMap]
      refine ⟨dp, ?_, ?_⟩
      · rw [List.mem_map]
        refine ⟨(dp, CheckVal.sub), ?_, rfl⟩
        rw [List.mem_filter]
        exact ⟨lookupCM_mem cm dp _ hdir, by simp⟩
      · rw [hlut]
        show f ∈ (collectAllFilesUnder allow t).filter _
        rw [List.mem_filter]
        refine ⟨hbfs, ?_⟩
        rw [Bool.and_eq_true, Bool.not_eq_true']
        exact ⟨hcon, hallow⟩
    · rw [Bool.not_eq_true']
      exact hcon

/-- Witness for C2 on a directory with two plain files, one excluded: the
excluded file is absent and the other file present. -/
theorem updatePreview_exclusion_witness :
    lookupCM [("/r/a", CheckVal.sub), ("/r/a/x", CheckVal.off)] "/r/a/x"
      = some CheckVal.off ∧
    "/r/a/x" ∉ updatePreviewFiles
      [("/r/a", CheckVal.sub), ("/r/a/x", CheckVal.off)] []
      (fun s => if s == "/r/a" then
        some (CTree.dir "/r/a" [.file "/r/a/x", .file "/r/a/y"]) else none) ∧
    "/r/a/y" ∈ updatePreviewFiles
      [("/r/a", CheckVal.sub), ("/r/a/x", CheckVal.off)] []
      (fun s => if s == "/r/a" then
        some (CTree.dir "/r/a" [.file "/r/a/x", .file "/r/a/y"]) else none) := by
  have hd : descFiles (CTree.dir "/r/a" [.file "/r/a/x", .file "/r/a/y"])
      = ["/r/a/x", "/r/a/y"] := by
    simp [descFiles, CTree.kids, filesOfForest]
  have hn : nodesBelow (CTree.dir "/r/a" [.file "/r/a/x", .file "/r/a/y"])
      = ["/r/a/x", "/r/a/y"] := by
    simp [nodesBelow, CTree.kids, nodesOfForest]
  have h := updatePreview_exclusion
    [("/r/a", CheckVal.sub), ("/r/a/x", CheckVal.off)] []
    (fun s => if s == "/r/a" then
      some (CTree.dir "/r/a" [.file "/r/a/x", .file "/r/a/y"]) else none)
    "/r/a" "/r/a/x" (CTree.dir "/r/a" [.file "/r/a/x", .file "/r/a/y"])
    (by decide) (by decide) rfl (by decide)
    (by rw [hd]; decide) (by rw [hd]; decide)
  exact ⟨by decide, h.1,
    h.2 (by rw [hn]; decide) "/r/a/y" (by rw [hd]; decide) (by decide)⟩

/-- The unamended claim fails on blacklisted descendants: with directory
`/r/a` marked `'dir'` and only `/r/a/x.txt` excluded, the descendant file
`/r/a/.env` is also absent from the effective set, because its name is on
the bulk-selection blacklist and no override was granted. -/
theorem updatePreview_exclusion_counterexample :
    lookupCM [("/r/a", CheckVal.sub), ("/r/a/x.txt", CheckVal.off)] "/r/a"
      = some CheckVal.sub ∧
    lookupCM [("/r/a", CheckVal.sub), ("/r/a/x.txt", CheckVal.off)] "/r/a/x.txt"
      = some CheckVal.off ∧
    "/r/a/.env" ∈ descFiles
      (CTree.dir "/r/a" [.file "/r/a/x.txt", .file "/r/a/.env"]) ∧
    "/r/a/.env" ≠ "/r/a/x.txt" ∧
    "/r/a/.env" ∉ updatePreviewFiles
      [("/r/a", CheckVal.sub), ("/r/a/x.txt", CheckVal.off)] []
      (fun s => if s == "/r/a" then
        some (CTree.dir "/r/a" [.file "/r/a/x.txt", .file "/r/a/.env"])
        else none) := by
  have hcollect : collectAllFilesUnder []
      (CTree.dir "/r/a" [.file "/r/a/x.txt", .file "/r/a/.env"])
      = ["/r/a/x.txt", "/r/a/.env"] := by
    simp [collectAllFilesUnder, bfsFiles, CTree.kids, CTree.filePath,
      CTree.isDirNode]
  refine ⟨by decide, by decide, ?_, by decide, ?_⟩
  · simp [descFiles, CTree.kids, filesOfForest]
  · intro hmem
    simp [updatePreviewFiles, excludedKeys, allowOkB, isBlacklistedPath,
      splitSegs, splitSegsAux, BLACKLIST_NAMES, hcollect] at hmem

end Prompster
